import Mathlib

/-!
# Verification of the QAT model rewriter (`python/paddle/quantization/qat.py`)

The rewriter walks a model tree and
(a) replaces quantization-eligible layers whose concrete type has a QAT
counterpart, and (b) wraps layers that need activation observation.

The model tree is embedded as a pure inductive `Layer`: a node has a type
marker (`kind`, standing for the Python `type(child)`) and an ordered
association list of named children (standing for `Layer._sub_layers`,
enumerated by `named_children`).

The quantization configuration (`QuantConfig` in `config.py`, which is not
part of the sources verified here) is an opaque collaborator.  Its behaviour
after `_specify` has bound it to the working model is captured by the record
`SpecifiedConfig` of decision functions, and `_specify` itself — which binds
the configuration to a model and mutates only configuration-side state — is
modelled as a function from the working model to that bound behavioural view.
-/

inductive Layer : Type where
  | mk (kind : Nat) (children : List (String × Layer))

def Layer.kind : Layer → Nat
  | .mk k _ => k

def Layer.children : Layer → List (String × Layer)
  | .mk _ cs => cs

/-- The behaviour of a quantization configuration once `_specify` has bound
it to a working model: the decision functions consulted by the two rewrite
passes of `qat.py`. `qat_layer_mappings` is the set of layer kinds that have
a QAT counterpart (`type(child) in config.qat_layer_mappings`). -/
structure SpecifiedConfig where
  is_quantifiable : Layer → Bool
  qat_layer_mappings : List Nat
  get_qat_layer : Layer → Layer
  need_observe : Layer → Bool
  get_observe_wrapper : Layer → Layer

/-- Modelled from the spec: the quantization configuration collaborator
(`QuantConfig` of `config.py`, not among the verified sources).  Per the
spec, `specify(model)` "binds/annotates the config to a model tree" as a
configuration-side effect; it is modelled as producing the bound behavioural
view consulted by the subsequent passes, leaving the model tree itself
untouched. -/
structure QuantConfig where
  specify : Layer → SpecifiedConfig

/-- Assignment `m[key] = value` on an association list standing for a Python
dict: overwrite the binding of `key` if present, append it otherwise. -/
def setKey {α : Type} : List (String × α) → String → α → List (String × α)
  | [], key, value => [(key, value)]
  | (n, c) :: rest, key, value =>
    if n = key then (n, value) :: rest else (n, c) :: setKey rest key value

/-- The install step shared by both passes:
`for key, value in replaced.items(): model._sub_layers[key] = value`. -/
def installReplacements (cs : List (String × Layer))
    (replaced : List (String × Layer)) : List (String × Layer) :=
  replaced.foldl (fun acc kv => setKey acc kv.1 kv.2) cs

mutual
/-- `QAT._convert_to_quant_layers`: iterate the node's named children,
recursing into quantifiable children of unmapped kind, staging
`get_qat_layer` replacements for quantifiable children of mapped kind, then
install the staged replacements. -/
def convert_to_quant_layers (config : SpecifiedConfig) : Layer → Layer
  | .mk k cs =>
    let p := convertLoop config cs
    .mk k (installReplacements p.1 p.2)

/-- The `for name, child in model.named_children()` loop body of
`_convert_to_quant_layers`: returns the children as left after the in-place
recursions, paired with the staged `replaced` association list. -/
def convertLoop (config : SpecifiedConfig) :
    List (String × Layer) → List (String × Layer) × List (String × Layer)
  | [] => ([], [])
  | (name, child) :: rest =>
    if config.is_quantifiable child then
      if (config.qat_layer_mappings.contains child.kind) = false then
        let p := convertLoop config rest
        ((name, convert_to_quant_layers config child) :: p.1, p.2)
      else
        let p := convertLoop config rest
        ((name, child) :: p.1, (name, config.get_qat_layer child) :: p.2)
    else
      let p := convertLoop config rest
      ((name, child) :: p.1, p.2)
end

mutual
/-- `QAT._insert_activation_observers`: iterate the node's named children,
staging `get_observe_wrapper` for children that `need_observe`, recursing
into the others, then install the staged replacements. -/
def insert_activation_observers (config : SpecifiedConfig) : Layer → Layer
  | .mk k cs =>
    let p := observeLoop config cs
    .mk k (installReplacements p.1 p.2)

/-- The loop body of `_insert_activation_observers`. -/
def observeLoop (config : SpecifiedConfig) :
    List (String × Layer) → List (String × Layer) × List (String × Layer)
  | [] => ([], [])
  | (name, child) :: rest =>
    if config.need_observe child then
      let p := observeLoop config rest
      ((name, child) :: p.1, (name, config.get_observe_wrapper child) :: p.2)
    else
      let p := observeLoop config rest
      ((name, insert_activation_observers config child) :: p.1, p.2)
end

/-- `copy.deepcopy` on the model: produces a structurally identical model;
on the pure value view of the tree this is the identity. -/
def deepcopy (model : Layer) : Layer := model

/-- `QAT.quantize`: work on the model itself if `inplace`, else on a deep
copy; bind the configuration to the working model; run the replacement pass,
then the observer-insertion pass, and return the working model. -/
def quantize (config : QuantConfig) (model : Layer) (inplace : Bool) : Layer :=
  let workingModel := if inplace then model else deepcopy model
  let bound := config.specify workingModel
  let m1 := convert_to_quant_layers bound workingModel
  let m2 := insert_activation_observers bound m1
  m2

/-- Names bound in a child association list. -/
def namesOf {α : Type} (cs : List (String × α)) : List String :=
  cs.map Prod.fst

/-- Lookup of a child by name (first binding wins, as in a dict without
duplicate keys). -/
def findChild {α : Type} : List (String × α) → String → Option α
  | [], _ => none
  | (n, c) :: rest, key => if n = key then some c else findChild rest key

/-- Custom induction principle for the nested inductive `Layer`: to prove a
property of every layer it suffices to prove it for a node assuming it for
each named child. -/
theorem Layer.recOnNodes (motive : Layer → Prop)
    (step : ∀ k cs, (∀ nc ∈ cs, motive nc.2) → motive (.mk k cs)) :
    ∀ l, motive l := by
  have H : ∀ n l, sizeOf l < n → motive l := by
    intro n
    induction n with
    | zero => intro l h; omega
    | succ n ih =>
      intro l h
      cases l with
      | mk k cs =>
        apply step
        intro nc hm
        apply ih
        have h1 : sizeOf nc < sizeOf cs := List.sizeOf_lt_of_mem hm
        have h2 : sizeOf nc.2 < sizeOf nc := by
          cases nc with
          | mk a b => simp
        have h3 : sizeOf (Layer.mk k cs) = 1 + sizeOf k + sizeOf cs := by
          simp [Layer.mk.sizeOf_spec]
        omega
  intro l
  exact H (sizeOf l + 1) l (by omega)

theorem Layer.eta : ∀ l : Layer, Layer.mk l.kind l.children = l
  | .mk _ _ => rfl

theorem namesOf_nil {α : Type} : namesOf ([] : List (String × α)) = [] := rfl

theorem namesOf_cons {α : Type} (nc : String × α) (cs : List (String × α)) :
    namesOf (nc :: cs) = nc.1 :: namesOf cs := rfl

theorem mem_namesOf {α : Type} {cs : List (String × α)} {nc : String × α}
    (h : nc ∈ cs) : nc.1 ∈ namesOf cs := List.mem_map_of_mem Prod.fst h

/-- In an association list with no duplicate names, a name determines its
value. -/
theorem mem_eq_of_nodup_names {α : Type} :
    ∀ {cs : List (String × α)} {k : String} {a b : α},
      (namesOf cs).Nodup → (k, a) ∈ cs → (k, b) ∈ cs → a = b := by
  intro cs
  induction cs with
  | nil => intro k a b _ h; cases h
  | cons hd tl ih =>
    intro k a b hnd ha hb
    rw [namesOf_cons, List.nodup_cons] at hnd
    cases ha with
    | head =>
      cases hb with
      | head => rfl
      | tail _ hb' => exact absurd (mem_namesOf hb') hnd.1
    | tail _ ha' =>
      cases hb with
      | head => exact absurd (mem_namesOf ha') hnd.1
      | tail _ hb' => exact ih hnd.2 ha' hb'

theorem findChild_eq_of_mem {α : Type} :
    ∀ {cs : List (String × α)} {k : String} {a : α},
      (namesOf cs).Nodup → (k, a) ∈ cs → findChild cs k = some a := by
  intro cs
  induction cs with
  | nil => intro k a _ h; cases h
  | cons hd tl ih =>
    intro k a hnd ha
    rw [namesOf_cons, List.nodup_cons] at hnd
    cases ha with
    | head => simp [findChild]
    | tail _ ha' =>
      have hne : hd.1 ≠ k := by
        intro he
        exact hnd.1 (he ▸ mem_namesOf ha')
      cases hd with
      | mk n c => simpa [findChild, hne] using ih hnd.2 ha'

theorem findChild_mem {α : Type} :
    ∀ {cs : List (String × α)} {k : String} {a : α},
      findChild cs k = some a → (k, a) ∈ cs := by
  intro cs
  induction cs with
  | nil => intro k a h; simp [findChild] at h
  | cons hd tl ih =>
    intro k a h
    cases hd with
    | mk n c =>
      by_cases hn : n = k
      · subst hn
        simp [findChild] at h
        subst h
        exact List.mem_cons_self _ _
      · simp [findChild, hn] at h
        exact List.mem_cons_of_mem _ (ih h)

theorem namesOf_setKey_of_mem {α : Type} :
    ∀ {cs : List (String × α)} {key : String} (v : α),
      key ∈ namesOf cs → namesOf (setKey cs key v) = namesOf cs := by
  intro cs
  induction cs with
  | nil => intro key v h; simp [namesOf] at h
  | cons hd tl ih =>
    intro key v h
    cases hd with
    | mk n c =>
      by_cases hn : n = key
      · simp [setKey, hn, namesOf]
      · rw [namesOf_cons] at h
        simp only [List.mem_cons] at h
        rcases h with h | h
        · exact absurd h.symm hn
        · simp [setKey, hn, namesOf_cons, ih v h]

theorem findChild_setKey_self {α : Type} :
    ∀ (cs : List (String × α)) (key : String) (v : α),
      findChild (setKey cs key v) key = some v := by
  intro cs
  induction cs with
  | nil => intro key v; simp [setKey, findChild]
  | cons hd tl ih =>
    intro key v
    cases hd with
    | mk n c =>
      by_cases hn : n = key
      · simp [setKey, hn, findChild]
      · simp [setKey, hn, findChild, ih]

theorem findChild_setKey_ne {α : Type} :
    ∀ (cs : List (String × α)) {n : String} (key : String) (v : α),
      n ≠ key → findChild (setKey cs key v) n = findChild cs n := by
  intro cs
  induction cs with
  | nil =>
    intro n key v hne
    have hkn : ¬ key = n := fun h => hne h.symm
    simp [setKey, findChild, hkn]
  | cons hd tl ih =>
    intro n key v hne
    cases hd with
    | mk m c =>
      by_cases hm : m = key
      · subst hm
        have hmn : ¬ m = n := fun h => hne h.symm
        simp [setKey, findChild, hmn]
      · by_cases hmn : m = n
        · simp [setKey, hm, findChild, hmn, hne]
        · simp [setKey, hm, findChild, hmn, ih key v hne]

theorem mem_setKey_names {α : Type} :
    ∀ (cs : List (String × α)) (key : String) (v : α) {n : String},
      n ∈ namesOf cs → n ∈ namesOf (setKey cs key v) := by
  intro cs
  induction cs with
  | nil => intro key v n h; simp [namesOf] at h
  | cons hd tl ih =>
    intro key v n h
    cases hd with
    | mk m c =>
      by_cases hm : m = key
      · simpa [setKey, hm, namesOf] using h
      · rw [namesOf_cons] at h
        simp only [List.mem_cons] at h
        rcases h with h | h
        · simp [setKey, hm, namesOf_cons, h]
        · simp [setKey, hm, namesOf_cons, ih key v h]

theorem namesOf_installReplacements {α : Type} :
    ∀ (replaced cs : List (String × α)),
      (∀ q ∈ replaced, q.1 ∈ namesOf cs) →
      namesOf ((replaced.foldl (fun acc kv => setKey acc kv.1 kv.2) cs)) = namesOf cs := by
  intro replaced
  induction replaced with
  | nil => intro cs _; rfl
  | cons hd tl ih =>
    intro cs h
    have hhd : hd.1 ∈ namesOf cs := h hd (List.mem_cons_self _ _)
    have hstep : namesOf (setKey cs hd.1 hd.2) = namesOf cs :=
      namesOf_setKey_of_mem hd.2 hhd
    simp only [List.foldl_cons]
    rw [ih (setKey cs hd.1 hd.2) (fun q hq => by
      rw [hstep]; exact h q (List.mem_cons_of_mem _ hq)), hstep]

theorem findChild_installReplacements_notmem {α : Type} :
    ∀ (replaced cs : List (String × α)) {key : String},
      key ∉ namesOf replaced →
      findChild (replaced.foldl (fun acc kv => setKey acc kv.1 kv.2) cs) key
        = findChild cs key := by
  intro replaced
  induction replaced with
  | nil => intro cs key _; rfl
  | cons hd tl ih =>
    intro cs key h
    rw [namesOf_cons] at h
    simp only [List.mem_cons, not_or] at h
    simp only [List.foldl_cons]
    rw [ih (setKey cs hd.1 hd.2) h.2,
      findChild_setKey_ne cs hd.1 hd.2 (fun he => h.1 he)]

theorem findChild_installReplacements_mem {α : Type} :
    ∀ (replaced cs : List (String × α)) {key : String} {v : α},
      (namesOf replaced).Nodup → (key, v) ∈ replaced →
      findChild (replaced.foldl (fun acc kv => setKey acc kv.1 kv.2) cs) key
        = some v := by
  intro replaced
  induction replaced with
  | nil => intro cs key v _ h; cases h
  | cons hd tl ih =>
    intro cs key v hnd hm
    rw [namesOf_cons, List.nodup_cons] at hnd
    simp only [List.foldl_cons]
    cases hm with
    | head =>
      rw [findChild_installReplacements_notmem tl _ hnd.1]
      exact findChild_setKey_self cs key v
    | tail _ hm' => exact ih _ hnd.2 hm'

/-- The fate of a single pre-pass child slot under the replacement pass:
skipped when ineligible, recursed into when eligible of unmapped kind,
kept (pending the staged install) when eligible of mapped kind. -/
def convertDecision (config : SpecifiedConfig) (child : Layer) : Layer :=
  if config.is_quantifiable child then
    if (config.qat_layer_mappings.contains child.kind) = false then
      convert_to_quant_layers config child
    else child
  else child

/-- The staged entry the replacement pass records for a single pre-pass
child, if any. -/
def convertStaged (config : SpecifiedConfig) (nc : String × Layer) :
    Option (String × Layer) :=
  if config.is_quantifiable nc.2
      ∧ (config.qat_layer_mappings.contains nc.2.kind) = true then
    some (nc.1, config.get_qat_layer nc.2)
  else none

/-- The fate of a single pre-pass child slot under the observer-insertion
pass. -/
def observeDecision (config : SpecifiedConfig) (child : Layer) : Layer :=
  if config.need_observe child then child
  else insert_activation_observers config child

/-- The staged entry the observer-insertion pass records for a single
pre-pass child, if any. -/
def observeStaged (config : SpecifiedConfig) (nc : String × Layer) :
    Option (String × Layer) :=
  if config.need_observe nc.2 then some (nc.1, config.get_observe_wrapper nc.2)
  else none

/-- The replacement-pass loop factors through the pre-pass child list: the
post-recursion children are a per-child map of it and the staged
replacements are a per-child filter of it. -/
theorem convertLoop_eq (config : SpecifiedConfig) :
    ∀ cs : List (String × Layer),
      convertLoop config cs
        = (cs.map (fun nc => (nc.1, convertDecision config nc.2)),
           cs.filterMap (convertStaged config)) := by
  intro cs
  induction cs with
  | nil => simp [convertLoop]
  | cons hd tl ih =>
    cases hd with
    | mk name child =>
      by_cases hq : config.is_quantifiable child
      · by_cases hm : (config.qat_layer_mappings.contains child.kind) = false
        · have hm' : child.kind ∉ config.qat_layer_mappings := by simpa using hm
          simp [convertLoop, hq, hm, hm', ih, convertDecision, convertStaged]
        · simp only [Bool.not_eq_false] at hm
          have hm' : child.kind ∈ config.qat_layer_mappings := by simpa using hm
          simp [convertLoop, hq, hm, hm', ih, convertDecision, convertStaged]
      · simp [convertLoop, hq, ih, convertDecision, convertStaged]

/-- The observer-insertion loop factors through the pre-pass child list in
the same way. -/
theorem observeLoop_eq (config : SpecifiedConfig) :
    ∀ cs : List (String × Layer),
      observeLoop config cs
        = (cs.map (fun nc => (nc.1, observeDecision config nc.2)),
           cs.filterMap (observeStaged config)) := by
  intro cs
  induction cs with
  | nil => simp [observeLoop]
  | cons hd tl ih =>
    cases hd with
    | mk name child =>
      by_cases ho : config.need_observe child
      · simp [observeLoop, ho, ih, observeDecision, observeStaged]
      · simp [observeLoop, ho, ih, observeDecision, observeStaged]

theorem convert_to_quant_layers_mk (config : SpecifiedConfig) (k : Nat)
    (cs : List (String × Layer)) :
    convert_to_quant_layers config (.mk k cs)
      = .mk k (installReplacements
          (cs.map (fun nc => (nc.1, convertDecision config nc.2)))
          (cs.filterMap (convertStaged config))) := by
  rw [convert_to_quant_layers]
  rw [convertLoop_eq]

theorem insert_activation_observers_mk (config : SpecifiedConfig) (k : Nat)
    (cs : List (String × Layer)) :
    insert_activation_observers config (.mk k cs)
      = .mk k (installReplacements
          (cs.map (fun nc => (nc.1, observeDecision config nc.2)))
          (cs.filterMap (observeStaged config))) := by
  rw [insert_activation_observers]
  rw [observeLoop_eq]

theorem namesOf_map_snd {α β : Type} (f : α → β) (cs : List (String × α)) :
    namesOf (cs.map fun nc => (nc.1, f nc.2)) = namesOf cs := by
  simp [namesOf, List.map_map]

theorem findChild_map {α β : Type} (f : α → β) :
    ∀ (cs : List (String × α)) (key : String),
      findChild (cs.map fun nc => (nc.1, f nc.2)) key
        = (findChild cs key).map f := by
  intro cs
  induction cs with
  | nil => intro key; simp [findChild]
  | cons hd tl ih =>
    intro key
    cases hd with
    | mk n c =>
      by_cases hn : n = key
      · simp [findChild, hn]
      · simp [findChild, hn, ih]

theorem namesOf_filterMap_sublist {α β : Type}
    (g : (String × α) → Option (String × β))
    (hg : ∀ nc x, g nc = some x → x.1 = nc.1) :
    ∀ cs : List (String × α), List.Sublist (namesOf (cs.filterMap g)) (namesOf cs) := by
  intro cs
  induction cs with
  | nil => simp [namesOf]
  | cons hd tl ih =>
    cases hgh : g hd with
    | none =>
      rw [List.filterMap_cons_none hgh, namesOf_cons]
      exact ih.trans (List.sublist_cons_self _ _)
    | some x =>
      rw [List.filterMap_cons_some hgh, namesOf_cons, namesOf_cons,
        hg hd x hgh]
      exact ih.cons₂ _

/-- The shape both passes share: per-child decisions are mapped over the
pre-pass children, staged entries filtered from them, and the staged entries
installed afterwards.  In a node with distinct child names, the slot of a
pre-pass child `(name, c)` ends up holding the staged value when one was
staged for `c`, and the mapped decision value otherwise. -/
theorem findChild_mapInstall {f : Layer → Layer}
    {g : (String × Layer) → Option (String × Layer)}
    (hg : ∀ nc x, g nc = some x → x.1 = nc.1)
    {cs : List (String × Layer)} {name : String} {c : Layer}
    (hnd : (namesOf cs).Nodup) (hm : (name, c) ∈ cs) :
    (g (name, c) = none →
      findChild (installReplacements (cs.map fun nc => (nc.1, f nc.2))
        (cs.filterMap g)) name = some (f c)) ∧
    (∀ v, g (name, c) = some (name, v) →
      findChild (installReplacements (cs.map fun nc => (nc.1, f nc.2))
        (cs.filterMap g)) name = some v) := by
  constructor
  · intro hnone
    have hnotin : name ∉ namesOf (cs.filterMap g) := by
      intro hin
      obtain ⟨x, hx, hx1⟩ := List.mem_map.mp hin
      obtain ⟨nc, hnc, hgnc⟩ := List.mem_filterMap.mp hx
      obtain ⟨n1, c1⟩ := nc
      have hn1 : n1 = name := by
        have := hg (n1, c1) x hgnc
        simp at this
        rw [← hx1, ← this]
      subst hn1
      have hc1 : c1 = c := mem_eq_of_nodup_names hnd hnc hm
      subst hc1
      rw [hgnc] at hnone
      cases hnone
    rw [installReplacements, findChild_installReplacements_notmem _ _ hnotin,
      findChild_map, findChild_eq_of_mem hnd hm]
    rfl
  · intro v hv
    have hmemstaged : (name, v) ∈ cs.filterMap g :=
      List.mem_filterMap.mpr ⟨(name, c), hm, hv⟩
    have hndstaged : (namesOf (cs.filterMap g)).Nodup :=
      (namesOf_filterMap_sublist g hg cs).nodup hnd
    exact findChild_installReplacements_mem _ _ hndstaged hmemstaged

theorem convertStaged_name (config : SpecifiedConfig) :
    ∀ nc x, convertStaged config nc = some x → x.1 = nc.1 := by
  intro nc x h
  unfold convertStaged at h
  split at h
  · cases h; rfl
  · cases h

theorem observeStaged_name (config : SpecifiedConfig) :
    ∀ nc x, observeStaged config nc = some x → x.1 = nc.1 := by
  intro nc x h
  unfold observeStaged at h
  split at h
  · cases h; rfl
  · cases h

/-- What the replacement pass leaves in the slot of each pre-pass child, in
the three cases of its decision policy. -/
theorem findChild_convert_to_quant_layers (config : SpecifiedConfig)
    {m : Layer} {name : String} {c : Layer}
    (hnd : (namesOf m.children).Nodup) (hm : (name, c) ∈ m.children) :
    (config.is_quantifiable c = false →
      findChild (convert_to_quant_layers config m).children name = some c) ∧
    (config.is_quantifiable c = true →
      (config.qat_layer_mappings.contains c.kind) = false →
      findChild (convert_to_quant_layers config m).children name
        = some (convert_to_quant_layers config c)) ∧
    (config.is_quantifiable c = true →
      (config.qat_layer_mappings.contains c.kind) = true →
      findChild (convert_to_quant_layers config m).children name
        = some (config.get_qat_layer c)) := by
  obtain ⟨k, cs⟩ := m
  simp only [Layer.children] at hnd hm
  rw [convert_to_quant_layers_mk]
  simp only [Layer.children]
  have base := findChild_mapInstall (f := convertDecision config)
    (g := convertStaged config) (convertStaged_name config) hnd hm
  refine ⟨fun hq => ?_, fun hq hmap => ?_, fun hq hmap => ?_⟩
  · have h1 := base.1 (by simp [convertStaged, hq])
    rwa [convertDecision, hq] at h1
  · have hmap' : c.kind ∉ config.qat_layer_mappings := by simpa using hmap
    have h1 := base.1 (by simp [convertStaged, hmap'])
    rwa [convertDecision, if_pos hq, if_pos hmap] at h1
  · have hmap' : c.kind ∈ config.qat_layer_mappings := by simpa using hmap
    have h1 := base.2 (config.get_qat_layer c)
      (by simp [convertStaged, hq, hmap'])
    exact h1

/-- What the observer-insertion pass leaves in the slot of each pre-pass
child, in the two cases of its decision policy. -/
theorem findChild_insert_activation_observers (config : SpecifiedConfig)
    {m : Layer} {name : String} {c : Layer}
    (hnd : (namesOf m.children).Nodup) (hm : (name, c) ∈ m.children) :
    (config.need_observe c = true →
      findChild (insert_activation_observers config m).children name
        = some (config.get_observe_wrapper c)) ∧
    (config.need_observe c = false →
      findChild (insert_activation_observers config m).children name
        = some (insert_activation_observers config c)) := by
  obtain ⟨k, cs⟩ := m
  simp only [Layer.children] at hnd hm
  rw [insert_activation_observers_mk]
  simp only [Layer.children]
  have base := findChild_mapInstall (f := observeDecision config)
    (g := observeStaged config) (observeStaged_name config) hnd hm
  refine ⟨fun ho => ?_, fun ho => ?_⟩
  · exact base.2 (config.get_observe_wrapper c) (by simp [observeStaged, ho])
  · have h1 := base.1 (by simp [observeStaged, ho])
    rwa [observeDecision, ho] at h1

theorem names_convert_to_quant_layers (config : SpecifiedConfig) (m : Layer) :
    namesOf (convert_to_quant_layers config m).children = namesOf m.children := by
  obtain ⟨k, cs⟩ := m
  rw [convert_to_quant_layers_mk]
  simp only [Layer.children]
  rw [installReplacements, namesOf_installReplacements, namesOf_map_snd]
  intro q hq
  rw [namesOf_map_snd]
  obtain ⟨nc, hnc, hgnc⟩ := List.mem_filterMap.mp hq
  rw [convertStaged_name config nc q hgnc]
  exact mem_namesOf hnc

theorem names_insert_activation_observers (config : SpecifiedConfig) (m : Layer) :
    namesOf (insert_activation_observers config m).children = namesOf m.children := by
  obtain ⟨k, cs⟩ := m
  rw [insert_activation_observers_mk]
  simp only [Layer.children]
  rw [installReplacements, namesOf_installReplacements, namesOf_map_snd]
  intro q hq
  rw [namesOf_map_snd]
  obtain ⟨nc, hnc, hgnc⟩ := List.mem_filterMap.mp hq
  rw [observeStaged_name config nc q hgnc]
  exact mem_namesOf hnc

theorem quantize_eq_passes (config : QuantConfig) (model : Layer)
    (inplace : Bool) :
    quantize config model inplace
      = insert_activation_observers (config.specify model)
          (convert_to_quant_layers (config.specify model) model) := by
  cases inplace <;> rfl

theorem names_quantize (config : QuantConfig) (model : Layer)
    (inplace : Bool) :
    namesOf (quantize config model inplace).children = namesOf model.children := by
  rw [quantize_eq_passes, names_insert_activation_observers,
    names_convert_to_quant_layers]

/-- C1: in the replacement pass, a child for which `is_quantifiable` is
false is skipped entirely: its slot still holds the very same subtree after
the pass, so no node below it is replaced — even when a descendant is
eligible and of a mapped kind. -/
theorem replacement_pass_skips_ineligible_child_subtree
    (config : SpecifiedConfig) (m : Layer) (name : String) (c : Layer)
    (hnd : (namesOf m.children).Nodup) (hm : (name, c) ∈ m.children)
    (hq : config.is_quantifiable c = false) :
    findChild (convert_to_quant_layers config m).children name = some c :=
  (findChild_convert_to_quant_layers config hnd hm).1 hq

/-- C3: in the replacement pass, an eligible child of unmapped kind is
recursed into (its slot holds the recursive result), while an eligible child
of mapped kind has `get_qat_layer child` staged for it and is not recursed
into (its slot holds exactly the staged replacement). -/
theorem replacement_pass_recurse_or_replace_eligible_child
    (config : SpecifiedConfig) (m : Layer) (name : String) (c : Layer)
    (hnd : (namesOf m.children).Nodup) (hm : (name, c) ∈ m.children)
    (hq : config.is_quantifiable c = true) :
    ((config.qat_layer_mappings.contains c.kind) = false →
      findChild (convert_to_quant_layers config m).children name
        = some (convert_to_quant_layers config c))
    ∧ ((config.qat_layer_mappings.contains c.kind) = true →
      findChild (convert_to_quant_layers config m).children name
        = some (config.get_qat_layer c)) :=
  ⟨fun hmap => (findChild_convert_to_quant_layers config hnd hm).2.1 hq hmap,
   fun hmap => (findChild_convert_to_quant_layers config hnd hm).2.2 hq hmap⟩

/-- C5: in the observer-insertion pass, a child with `need_observe` true has
`get_observe_wrapper child` staged for it and is not recursed into, while
any other child is recursed into; the two outcomes are mutually exclusive
per child. -/
theorem observer_pass_wrap_or_recurse
    (config : SpecifiedConfig) (m : Layer) (name : String) (c : Layer)
    (hnd : (namesOf m.children).Nodup) (hm : (name, c) ∈ m.children) :
    (config.need_observe c = true →
      findChild (insert_activation_observers config m).children name
        = some (config.get_observe_wrapper c))
    ∧ (config.need_observe c = false →
      findChild (insert_activation_observers config m).children name
        = some (insert_activation_observers config c)) :=
  findChild_insert_activation_observers config hnd hm

/-- C4: in both passes, the result at a node is obtained by first computing
the per-child outcomes — each a function of that pre-pass child alone — over
the node's pre-pass children, and only then installing the staged
replacements, so a staged replacement never influences the decisions of the
same node's pass. -/
theorem passes_stage_then_install_after_iteration
    (config : SpecifiedConfig) (m : Layer) :
    convert_to_quant_layers config m
      = .mk m.kind (installReplacements
          (m.children.map fun nc => (nc.1, convertDecision config nc.2))
          (m.children.filterMap (convertStaged config)))
    ∧ insert_activation_observers config m
      = .mk m.kind (installReplacements
          (m.children.map fun nc => (nc.1, observeDecision config nc.2))
          (m.children.filterMap (observeStaged config))) := by
  obtain ⟨k, cs⟩ := m
  exact ⟨convert_to_quant_layers_mk config k cs,
    insert_activation_observers_mk config k cs⟩

/-- C10: each pass, and `quantize` as a whole, preserves the list of child
names at every node it processes: replacements are only ever installed under
names that were already keys of the node's child mapping. -/
theorem quantize_preserves_child_names (config : QuantConfig)
    (bound : SpecifiedConfig) (m : Layer) (inplace : Bool) :
    namesOf (convert_to_quant_layers bound m).children = namesOf m.children
    ∧ namesOf (insert_activation_observers bound m).children
        = namesOf m.children
    ∧ namesOf (quantize config m inplace).children = namesOf m.children :=
  ⟨names_convert_to_quant_layers bound m,
   names_insert_activation_observers bound m,
   names_quantize config m inplace⟩

/-- C2: `quantize` is exactly clone-unless-inplace, bind the configuration,
replacement pass, observer pass, in that order; consequently a child
replaced by the first pass whose replacement satisfies `need_observe` ends
up wrapped by `get_observe_wrapper` applied to the replacement, not to the
original child. -/
theorem quantize_sequence_and_observer_wraps_replacement
    (config : QuantConfig) (model : Layer) (inplace : Bool) :
    (quantize config model inplace
      = (let workingModel := if inplace then model else deepcopy model
         let bound := config.specify workingModel
         insert_activation_observers bound
           (convert_to_quant_layers bound workingModel)))
    ∧ (∀ name c,
        (namesOf model.children).Nodup →
        (name, c) ∈ model.children →
        (config.specify model).is_quantifiable c = true →
        ((config.specify model).qat_layer_mappings.contains c.kind) = true →
        (config.specify model).need_observe
            ((config.specify model).get_qat_layer c) = true →
        findChild (quantize config model inplace).children name
          = some ((config.specify model).get_observe_wrapper
              ((config.specify model).get_qat_layer c))) := by
  constructor
  · rfl
  · intro name c hnd hm hq hmap hobs
    rw [quantize_eq_passes]
    have h1 : findChild (convert_to_quant_layers (config.specify model) model).children name
        = some ((config.specify model).get_qat_layer c) :=
      (findChild_convert_to_quant_layers (config.specify model) hnd hm).2.2 hq hmap
    have h2 : (name, (config.specify model).get_qat_layer c)
        ∈ (convert_to_quant_layers (config.specify model) model).children :=
      findChild_mem h1
    have h3 : (namesOf (convert_to_quant_layers (config.specify model) model).children).Nodup := by
      rw [names_convert_to_quant_layers]
      exact hnd
    exact (findChild_insert_activation_observers (config.specify model) h3 h2).1 hobs

/-- A concrete QAT replacement constructor: wraps the original layer, as the
real `get_qat_layer` wraps the layer it replaces. -/
def sampleQat (l : Layer) : Layer := .mk 100 [("orig", l)]

/-- A concrete observer wrapper constructor. -/
def sampleWrap (l : Layer) : Layer := .mk 200 [("obs", l)]

/-- A concrete bound configuration: kind 5 is not quantifiable, kind 3 has a
QAT counterpart, and QAT replacement layers (kind 100) need observation. -/
def sampleSpecified : SpecifiedConfig :=
  ⟨fun l => decide (l.kind ≠ 5), [3], sampleQat,
   fun l => decide (l.kind = 100), sampleWrap⟩

def sampleConfig : QuantConfig := ⟨fun _ => sampleSpecified⟩

def convChild : Layer := .mk 3 []

def normChild : Layer := .mk 5 [("inner", .mk 3 [])]

def blkChild : Layer := .mk 7 [("c2", .mk 3 [])]

def sampleModel : Layer :=
  .mk 0 [("conv", convChild), ("norm", normChild), ("blk", blkChild)]

theorem replacement_pass_skips_ineligible_child_subtree_witness :
    sampleSpecified.is_quantifiable normChild = false
    ∧ findChild (convert_to_quant_layers sampleSpecified sampleModel).children
        "norm" = some normChild :=
  ⟨by decide,
   replacement_pass_skips_ineligible_child_subtree sampleSpecified sampleModel
     "norm" normChild (by decide) (by simp [sampleModel, Layer.children]) (by decide)⟩

theorem replacement_pass_recurse_or_replace_eligible_child_witness :
    sampleSpecified.is_quantifiable blkChild = true
    ∧ findChild (convert_to_quant_layers sampleSpecified sampleModel).children
        "blk" = some (convert_to_quant_layers sampleSpecified blkChild)
    ∧ findChild (convert_to_quant_layers sampleSpecified sampleModel).children
        "conv" = some (sampleQat convChild) :=
  ⟨by decide,
   (replacement_pass_recurse_or_replace_eligible_child sampleSpecified
     sampleModel "blk" blkChild (by decide) (by simp [sampleModel, Layer.children])
     (by decide)).1 (by decide),
   (replacement_pass_recurse_or_replace_eligible_child sampleSpecified
     sampleModel "conv" convChild (by decide) (by simp [sampleModel, Layer.children])
     (by decide)).2 (by decide)⟩

def obsModel : Layer :=
  .mk 0 [("a", .mk 100 []), ("b", .mk 1 [("c", .mk 100 [])])]

theorem observer_pass_wrap_or_recurse_witness :
    sampleSpecified.need_observe (.mk 100 []) = true
    ∧ findChild (insert_activation_observers sampleSpecified obsModel).children
        "a" = some (sampleWrap (.mk 100 []))
    ∧ findChild (insert_activation_observers sampleSpecified obsModel).children
        "b" = some (insert_activation_observers sampleSpecified
          (.mk 1 [("c", .mk 100 [])])) :=
  ⟨by decide,
   (observer_pass_wrap_or_recurse sampleSpecified obsModel "a" (.mk 100 [])
     (by decide) (by simp [obsModel, Layer.children])).1 (by decide),
   (observer_pass_wrap_or_recurse sampleSpecified obsModel "b"
     (.mk 1 [("c", .mk 100 [])]) (by decide) (by simp [obsModel, Layer.children])).2
     (by decide)⟩

theorem quantize_sequence_and_observer_wraps_replacement_witness :
    sampleSpecified.need_observe (sampleQat convChild) = true
    ∧ findChild (quantize sampleConfig sampleModel false).children "conv"
        = some (sampleWrap (sampleQat convChild)) :=
  ⟨by decide,
   (quantize_sequence_and_observer_wraps_replacement sampleConfig sampleModel
     false).2 "conv" convChild (by decide) (by simp [sampleModel, Layer.children]) (by decide)
     (by decide) (by decide)⟩

mutual
/-- All nodes of a layer tree: the node itself and every descendant. -/
def Layer.nodes : Layer → List Layer
  | .mk k cs => .mk k cs :: nodesOfChildren cs

def nodesOfChildren : List (String × Layer) → List Layer
  | [] => []
  | nc :: rest => nc.2.nodes ++ nodesOfChildren rest
end

theorem self_mem_nodes : ∀ l : Layer, l ∈ l.nodes := by
  intro l
  obtain ⟨k, cs⟩ := l
  rw [Layer.nodes]
  exact List.mem_cons_self _ _

theorem nodes_subset_of_mem_children {k : Nat} {cs : List (String × Layer)} :
    ∀ {nc : String × Layer}, nc ∈ cs →
      ∀ {x : Layer}, x ∈ nc.2.nodes → x ∈ (Layer.mk k cs).nodes := by
  intro nc hnc x hx
  rw [Layer.nodes]
  apply List.mem_cons_of_mem
  induction cs with
  | nil => cases hnc
  | cons hd tl ih =>
    rw [nodesOfChildren]
    cases hnc with
    | head => exact List.mem_append_left _ hx
    | tail _ h => exact List.mem_append_right _ (ih h)

theorem convert_to_quant_layers_id (config : SpecifiedConfig) (m : Layer)
    (hq : ∀ l ∈ m.nodes, config.is_quantifiable l = false) :
    convert_to_quant_layers config m = m := by
  obtain ⟨k, cs⟩ := m
  rw [convert_to_quant_layers_mk]
  have hchild : ∀ nc ∈ cs, config.is_quantifiable nc.2 = false := by
    intro nc hnc
    exact hq nc.2 (nodes_subset_of_mem_children hnc (self_mem_nodes nc.2))
  have hmap : cs.map (fun nc => (nc.1, convertDecision config nc.2)) = cs := by
    have : ∀ nc ∈ cs, (nc.1, convertDecision config nc.2) = id nc := by
      intro nc hnc
      rw [convertDecision, hchild nc hnc]
      simp
    rw [List.map_congr_left this, List.map_id]
  have hfm : cs.filterMap (convertStaged config) = [] := by
    rw [List.filterMap_eq_nil_iff]
    intro nc hnc
    simp [convertStaged, hchild nc hnc]
  rw [hmap, hfm]
  rfl

theorem insert_activation_observers_id (config : SpecifiedConfig) :
    ∀ m : Layer, (∀ l ∈ m.nodes, config.need_observe l = false) →
      insert_activation_observers config m = m := by
  intro m
  induction m using Layer.recOnNodes with
  | step k cs ih =>
    intro ho
    rw [insert_activation_observers_mk]
    have hchild : ∀ nc ∈ cs, ∀ l ∈ nc.2.nodes,
        config.need_observe l = false := by
      intro nc hnc l hl
      exact ho l (nodes_subset_of_mem_children hnc hl)
    have hmap : cs.map (fun nc => (nc.1, observeDecision config nc.2)) = cs := by
      have : ∀ nc ∈ cs, (nc.1, observeDecision config nc.2) = id nc := by
        intro nc hnc
        have hno : config.need_observe nc.2 = false :=
          hchild nc hnc nc.2 (self_mem_nodes nc.2)
        rw [observeDecision, hno]
        simp [ih nc hnc (hchild nc hnc)]
      rw [List.map_congr_left this, List.map_id]
    have hfm : cs.filterMap (observeStaged config) = [] := by
      rw [List.filterMap_eq_nil_iff]
      intro nc hnc
      simp [observeStaged, hchild nc hnc nc.2 (self_mem_nodes nc.2)]
    rw [hmap, hfm]
    rfl

/-- C6 (amended): when no node of the model is quantization-eligible AND no
node needs observation, `quantize` returns the tree unchanged, for both
values of `inplace`. -/
theorem quantize_identity_when_nothing_eligible_or_observed
    (config : QuantConfig) (m : Layer) (inplace : Bool)
    (hq : ∀ l ∈ m.nodes, (config.specify m).is_quantifiable l = false)
    (ho : ∀ l ∈ m.nodes, (config.specify m).need_observe l = false) :
    quantize config m inplace = m := by
  rw [quantize_eq_passes, convert_to_quant_layers_id _ _ hq,
    insert_activation_observers_id _ _ ho]

/-- A configuration that deems nothing quantifiable but everything in need
of observation. -/
def cexSpecified : SpecifiedConfig :=
  ⟨fun _ => false, [], fun l => l, fun _ => true, fun _ => .mk 99 []⟩

def cexConfig : QuantConfig := ⟨fun _ => cexSpecified⟩

def cexModel : Layer := .mk 0 [("a", .mk 1 [])]

/-- C6 as stated is false: with no node quantization-eligible but a child
that `need_observe` accepts, `quantize` still changes the tree (the
observer-insertion pass wraps regardless of eligibility). -/
theorem quantize_changes_tree_without_eligible_nodes :
    (∀ l ∈ cexModel.nodes,
      (cexConfig.specify cexModel).is_quantifiable l = false)
    ∧ quantize cexConfig cexModel false ≠ cexModel := by
  constructor
  · intro l _
    rfl
  · intro h
    have heval : quantize cexConfig cexModel false
        = Layer.mk 0 [("a", Layer.mk 99 [])] := by
      rw [quantize_eq_passes]
      simp [cexConfig, cexSpecified, cexModel, convert_to_quant_layers_mk,
        insert_activation_observers_mk, convertDecision, convertStaged,
        observeDecision, observeStaged, installReplacements, setKey]
    rw [heval, cexModel] at h
    simp at h

/-- A configuration that deems nothing quantifiable and nothing in need of
observation. -/
def quietSpecified : SpecifiedConfig :=
  ⟨fun _ => false, [], fun l => l, fun _ => false, fun l => l⟩

def quietConfig : QuantConfig := ⟨fun _ => quietSpecified⟩

theorem quantize_identity_when_nothing_eligible_or_observed_witness :
    quantize quietConfig cexModel false = cexModel
    ∧ quantize quietConfig cexModel true = cexModel :=
  ⟨quantize_identity_when_nothing_eligible_or_observed quietConfig cexModel
     false (fun _ _ => rfl) (fun _ _ => rfl),
   quantize_identity_when_nothing_eligible_or_observed quietConfig cexModel
     true (fun _ _ => rfl) (fun _ _ => rfl)⟩

/-! ## Exception-aware view, for the error-propagation contract

Every collaborator call of `quantize` may raise; the rewriter itself
neither raises, catches, wraps nor recovers.  The passes are re-run in the
`Except` monad with each collaborator call fallible, and related to the pure
view above. -/

structure SpecifiedConfigE (E : Type) where
  is_quantifiable : Layer → Except E Bool
  qat_layer_mappings : List Nat
  get_qat_layer : Layer → Except E Layer
  need_observe : Layer → Except E Bool
  get_observe_wrapper : Layer → Except E Layer

structure QuantConfigE (E : Type) where
  specify : Layer → Except E (SpecifiedConfigE E)

mutual
/-- `_convert_to_quant_layers` with fallible collaborator calls. -/
def convert_to_quant_layersE {E : Type} (config : SpecifiedConfigE E) :
    Layer → Except E Layer
  | .mk k cs => do
    let p ← convertLoopE config cs
    pure (.mk k (installReplacements p.1 p.2))

/-- The loop of `_convert_to_quant_layers` with fallible collaborator
calls; an exception from any call aborts the whole loop. -/
def convertLoopE {E : Type} (config : SpecifiedConfigE E) :
    List (String × Layer) →
      Except E (List (String × Layer) × List (String × Layer))
  | [] => pure ([], [])
  | (name, child) :: rest => do
    let q ← config.is_quantifiable child
    if q then
      if (config.qat_layer_mappings.contains child.kind) = false then do
        let c2 ← convert_to_quant_layersE config child
        let p ← convertLoopE config rest
        pure ((name, c2) :: p.1, p.2)
      else do
        let r ← config.get_qat_layer child
        let p ← convertLoopE config rest
        pure ((name, child) :: p.1, (name, r) :: p.2)
    else do
      let p ← convertLoopE config rest
      pure ((name, child) :: p.1, p.2)
end

mutual
/-- `_insert_activation_observers` with fallible collaborator calls. -/
def insert_activation_observersE {E : Type} (config : SpecifiedConfigE E) :
    Layer → Except E Layer
  | .mk k cs => do
    let p ← observeLoopE config cs
    pure (.mk k (installReplacements p.1 p.2))

/-- The loop of `_insert_activation_observers` with fallible collaborator
calls. -/
def observeLoopE {E : Type} (config : SpecifiedConfigE E) :
    List (String × Layer) →
      Except E (List (String × Layer) × List (String × Layer))
  | [] => pure ([], [])
  | (name, child) :: rest => do
    let o ← config.need_observe child
    if o then do
      let w ← config.get_observe_wrapper child
      let p ← observeLoopE config rest
      pure ((name, child) :: p.1, (name, w) :: p.2)
    else do
      let c2 ← insert_activation_observersE config child
      let p ← observeLoopE config rest
      pure ((name, c2) :: p.1, p.2)
end

/-- `QAT.quantize` with every collaborator call fallible, `dc` standing for
`copy.deepcopy` on the model. -/
def quantizeE {E : Type} (config : QuantConfigE E)
    (dc : Layer → Except E Layer) (model : Layer) (inplace : Bool) :
    Except E Layer := do
  let workingModel ← if inplace then pure model else dc model
  let bound ← config.specify workingModel
  let m1 ← convert_to_quant_layersE bound workingModel
  let m2 ← insert_activation_observersE bound m1
  pure m2

/-- The fallible configuration view agrees with a pure one: every call
returns `ok` of the pure answer. -/
def AgreesE {E : Type} (configE : SpecifiedConfigE E)
    (config : SpecifiedConfig) : Prop :=
  (∀ l, configE.is_quantifiable l = .ok (config.is_quantifiable l))
  ∧ configE.qat_layer_mappings = config.qat_layer_mappings
  ∧ (∀ l, configE.get_qat_layer l = .ok (config.get_qat_layer l))
  ∧ (∀ l, configE.need_observe l = .ok (config.need_observe l))
  ∧ (∀ l, configE.get_observe_wrapper l = .ok (config.get_observe_wrapper l))

/-- An error producible by one of the bound configuration's decision
functions. -/
def boundCollabError {E : Type} (b : SpecifiedConfigE E) (e : E) : Prop :=
  ∃ l, b.is_quantifiable l = .error e ∨ b.get_qat_layer l = .error e
    ∨ b.need_observe l = .error e ∨ b.get_observe_wrapper l = .error e

/-- An error producible by some collaborator call reachable from
`quantize`: model deep-copy, configuration binding, or a decision function
of a bound configuration that `specify` can return. -/
def collabError {E : Type} (configE : QuantConfigE E)
    (dc : Layer → Except E Layer) (e : E) : Prop :=
  (∃ l, dc l = .error e) ∨ (∃ l, configE.specify l = .error e)
  ∨ (∃ l b, configE.specify l = .ok b ∧ boundCollabError b e)

theorem except_bind_error {E α β : Type} (x : Except E α)
    (f : α → Except E β) (e : E) :
    x.bind f = .error e → x = .error e ∨ ∃ a, x = .ok a ∧ f a = .error e := by
  cases x with
  | error e2 => intro h; cases h; exact Or.inl rfl
  | ok a => intro h; exact Or.inr ⟨a, rfl, h⟩

theorem except_ok_bind {E α β : Type} (a : α) (f : α → Except E β) :
    (Except.ok a : Except E α) >>= f = f a := rfl

theorem except_pure_eq_ok {E α : Type} (a : α) :
    (pure a : Except E α) = Except.ok a := rfl

theorem except_error_bind {E α β : Type} (e : E) (f : α → Except E β) :
    (Except.error e : Except E α) >>= f = Except.error e := rfl

theorem convertLoopE_agrees {E : Type} {cE : SpecifiedConfigE E}
    {c : SpecifiedConfig} (h : AgreesE cE c) :
    ∀ ds : List (String × Layer),
      (∀ nc ∈ ds, convert_to_quant_layersE cE nc.2
          = .ok (convert_to_quant_layers c nc.2)) →
      convertLoopE cE ds = .ok (convertLoop c ds) := by
  intro ds
  induction ds with
  | nil => intro _; simp [convertLoopE, convertLoop, except_pure_eq_ok]
  | cons hd tl ih =>
    intro hds
    obtain ⟨name, child⟩ := hd
    have hhd := hds (name, child) (List.mem_cons_self _ _)
    have htl := fun nc hm => hds nc (List.mem_cons_of_mem _ hm)
    rw [convertLoopE, convertLoop]
    rw [h.1 child, h.2.1]
    cases hq : c.is_quantifiable child with
    | true =>
      by_cases hmap : (c.qat_layer_mappings.contains child.kind) = false
      · have hmap2 : child.kind ∉ c.qat_layer_mappings := by simpa using hmap
        simp [hq, hmap, hmap2, except_ok_bind, except_pure_eq_ok, hhd, ih htl]
      · have hmap3 : c.qat_layer_mappings.contains child.kind = true := by
          simpa using hmap
        have hmap2 : child.kind ∈ c.qat_layer_mappings := by
          simpa using hmap3
        simp [hq, hmap, hmap2, except_ok_bind, except_pure_eq_ok,
          h.2.2.1 child, ih htl]
    | false =>
      simp [hq, except_ok_bind, except_pure_eq_ok, ih htl]

theorem convert_to_quant_layersE_agrees {E : Type} {cE : SpecifiedConfigE E}
    {c : SpecifiedConfig} (h : AgreesE cE c) :
    ∀ l, convert_to_quant_layersE cE l = .ok (convert_to_quant_layers c l) := by
  intro l
  induction l using Layer.recOnNodes with
  | step k cs ih =>
    rw [convert_to_quant_layersE, convert_to_quant_layers,
      convertLoopE_agrees h cs ih]
    simp [except_ok_bind, except_pure_eq_ok]

theorem observeLoopE_agrees {E : Type} {cE : SpecifiedConfigE E}
    {c : SpecifiedConfig} (h : AgreesE cE c) :
    ∀ ds : List (String × Layer),
      (∀ nc ∈ ds, insert_activation_observersE cE nc.2
          = .ok (insert_activation_observers c nc.2)) →
      observeLoopE cE ds = .ok (observeLoop c ds) := by
  intro ds
  induction ds with
  | nil => intro _; simp [observeLoopE, observeLoop, except_pure_eq_ok]
  | cons hd tl ih =>
    intro hds
    obtain ⟨name, child⟩ := hd
    have hhd := hds (name, child) (List.mem_cons_self _ _)
    have htl := fun nc hm => hds nc (List.mem_cons_of_mem _ hm)
    rw [observeLoopE, observeLoop, h.2.2.2.1 child]
    cases ho : c.need_observe child with
    | true =>
      simp [ho, except_ok_bind, except_pure_eq_ok, h.2.2.2.2 child, ih htl]
    | false =>
      simp [ho, except_ok_bind, except_pure_eq_ok, hhd, ih htl]

theorem insert_activation_observersE_agrees {E : Type}
    {cE : SpecifiedConfigE E} {c : SpecifiedConfig} (h : AgreesE cE c) :
    ∀ l, insert_activation_observersE cE l
      = .ok (insert_activation_observers c l) := by
  intro l
  induction l using Layer.recOnNodes with
  | step k cs ih =>
    rw [insert_activation_observersE, insert_activation_observers,
      observeLoopE_agrees h cs ih]
    simp [except_ok_bind, except_pure_eq_ok]

theorem convertLoopE_error {E : Type} (b : SpecifiedConfigE E) :
    ∀ ds : List (String × Layer),
      (∀ nc ∈ ds, ∀ e2, convert_to_quant_layersE b nc.2 = .error e2 →
        boundCollabError b e2) →
      ∀ e, convertLoopE b ds = .error e → boundCollabError b e := by
  intro ds
  induction ds with
  | nil =>
    intro _ e herr
    rw [convertLoopE] at herr
    cases herr
  | cons hd tl ih =>
    intro hds e herr
    obtain ⟨name, child⟩ := hd
    have hhd := hds (name, child) (List.mem_cons_self _ _)
    have htl := fun nc hm => hds nc (List.mem_cons_of_mem _ hm)
    rw [convertLoopE] at herr
    rcases except_bind_error _ _ _ herr with hq | ⟨q, hq, herr2⟩
    · exact ⟨child, Or.inl hq⟩
    · cases q with
      | true =>
        simp only [if_true] at herr2
        by_cases hmap : (b.qat_layer_mappings.contains child.kind) = false
        · rw [if_pos hmap] at herr2
          rcases except_bind_error _ _ _ herr2 with hc | ⟨c2, _, herr3⟩
          · exact hhd e hc
          · rcases except_bind_error _ _ _ herr3 with hl | ⟨p, _, herr4⟩
            · exact ih htl e hl
            · cases herr4
        · rw [if_neg hmap] at herr2
          rcases except_bind_error _ _ _ herr2 with hr | ⟨r, _, herr3⟩
          · exact ⟨child, Or.inr (Or.inl hr)⟩
          · rcases except_bind_error _ _ _ herr3 with hl | ⟨p, _, herr4⟩
            · exact ih htl e hl
            · cases herr4
      | false =>
        simp only [Bool.false_eq_true, if_false] at herr2
        rcases except_bind_error _ _ _ herr2 with hl | ⟨p, _, herr3⟩
        · exact ih htl e hl
        · cases herr3

theorem convert_to_quant_layersE_error {E : Type} (b : SpecifiedConfigE E) :
    ∀ l e, convert_to_quant_layersE b l = .error e → boundCollabError b e := by
  intro l
  induction l using Layer.recOnNodes with
  | step k cs ih =>
    intro e herr
    rw [convert_to_quant_layersE] at herr
    rcases except_bind_error _ _ _ herr with hl | ⟨p, _, herr2⟩
    · exact convertLoopE_error b cs ih e hl
    · cases herr2

theorem observeLoopE_error {E : Type} (b : SpecifiedConfigE E) :
    ∀ ds : List (String × Layer),
      (∀ nc ∈ ds, ∀ e2, insert_activation_observersE b nc.2 = .error e2 →
        boundCollabError b e2) →
      ∀ e, observeLoopE b ds = .error e → boundCollabError b e := by
  intro ds
  induction ds with
  | nil =>
    intro _ e herr
    rw [observeLoopE] at herr
    cases herr
  | cons hd tl ih =>
    intro hds e herr
    obtain ⟨name, child⟩ := hd
    have hhd := hds (name, child) (List.mem_cons_self _ _)
    have htl := fun nc hm => hds nc (List.mem_cons_of_mem _ hm)
    rw [observeLoopE] at herr
    rcases except_bind_error _ _ _ herr with ho | ⟨o, ho, herr2⟩
    · exact ⟨child, Or.inr (Or.inr (Or.inl ho))⟩
    · cases o with
      | true =>
        simp only [if_true] at herr2
        rcases except_bind_error _ _ _ herr2 with hw | ⟨w, _, herr3⟩
        · exact ⟨child, Or.inr (Or.inr (Or.inr hw))⟩
        · rcases except_bind_error _ _ _ herr3 with hl | ⟨p, _, herr4⟩
          · exact ih htl e hl
          · cases herr4
      | false =>
        simp only [Bool.false_eq_true, if_false] at herr2
        rcases except_bind_error _ _ _ herr2 with hc | ⟨c2, _, herr3⟩
        · exact hhd e hc
        · rcases except_bind_error _ _ _ herr3 with hl | ⟨p, _, herr4⟩
          · exact ih htl e hl
          · cases herr4

theorem insert_activation_observersE_error {E : Type}
    (b : SpecifiedConfigE E) :
    ∀ l e, insert_activation_observersE b l = .error e →
      boundCollabError b e := by
  intro l
  induction l using Layer.recOnNodes with
  | step k cs ih =>
    intro e herr
    rw [insert_activation_observersE] at herr
    rcases except_bind_error _ _ _ herr with hl | ⟨p, _, herr2⟩
    · exact observeLoopE_error b cs ih e hl
    · cases herr2

/-- C9: `quantize` raises no error of its own: when every collaborator call
returns normally the call completes and returns the working model, and any
error the call ends with is one produced by a collaborator (deep-copy,
configuration binding, or a bound decision function), propagated
unchanged. -/
theorem quantize_raises_no_error_of_its_own {E : Type}
    (configE : QuantConfigE E) (dc : Layer → Except E Layer)
    (config : QuantConfig) (model : Layer) (inplace : Bool) (e : E) :
    ((∀ l, dc l = .ok (deepcopy l)) →
      (∀ l, ∃ b, configE.specify l = .ok b ∧ AgreesE b (config.specify l)) →
      quantizeE configE dc model inplace
        = .ok (quantize config model inplace))
    ∧ (quantizeE configE dc model inplace = .error e →
      collabError configE dc e) := by
  constructor
  · intro hdc hspec
    obtain ⟨b, hok, hag⟩ := hspec model
    rw [quantize_eq_passes]
    cases inplace with
    | true =>
      simp only [quantizeE, if_true, except_pure_eq_ok, except_ok_bind]
      rw [hok]
      simp only [except_ok_bind]
      rw [convert_to_quant_layersE_agrees hag]
      simp only [except_ok_bind]
      rw [insert_activation_observersE_agrees hag]
      simp only [except_ok_bind, except_pure_eq_ok]
    | false =>
      simp only [quantizeE, Bool.false_eq_true, if_false]
      rw [hdc model]
      simp only [deepcopy, except_ok_bind]
      rw [hok]
      simp only [except_ok_bind]
      rw [convert_to_quant_layersE_agrees hag]
      simp only [except_ok_bind]
      rw [insert_activation_observersE_agrees hag]
      simp only [except_ok_bind, except_pure_eq_ok]
  · intro herr
    cases inplace with
    | true =>
      simp only [quantizeE, if_true, except_pure_eq_ok, except_ok_bind] at herr
      rcases except_bind_error _ _ _ herr with hs | ⟨b, hb, herr2⟩
      · exact Or.inr (Or.inl ⟨model, hs⟩)
      · rcases except_bind_error _ _ _ herr2 with hc | ⟨m1, _, herr3⟩
        · exact Or.inr (Or.inr ⟨model, b, hb,
            convert_to_quant_layersE_error b model e hc⟩)
        · rcases except_bind_error _ _ _ herr3 with ho | ⟨m2, _, herr4⟩
          · exact Or.inr (Or.inr ⟨model, b, hb,
              insert_activation_observersE_error b m1 e ho⟩)
          · cases herr4
    | false =>
      simp only [quantizeE, Bool.false_eq_true, if_false] at herr
      rcases except_bind_error _ _ _ herr with hd | ⟨w, hw, herr2⟩
      · exact Or.inl ⟨model, hd⟩
      · rcases except_bind_error _ _ _ herr2 with hs | ⟨b, hb, herr3⟩
        · exact Or.inr (Or.inl ⟨w, hs⟩)
        · rcases except_bind_error _ _ _ herr3 with hc | ⟨m1, _, herr4⟩
          · exact Or.inr (Or.inr ⟨w, b, hb,
              convert_to_quant_layersE_error b w e hc⟩)
          · rcases except_bind_error _ _ _ herr4 with ho | ⟨m2, _, herr5⟩
            · exact Or.inr (Or.inr ⟨w, b, hb,
                insert_activation_observersE_error b m1 e ho⟩)
            · cases herr5

def sampleSpecifiedE : SpecifiedConfigE String :=
  ⟨fun l => .ok (sampleSpecified.is_quantifiable l), [3],
   fun l => .ok (sampleSpecified.get_qat_layer l),
   fun l => .ok (sampleSpecified.need_observe l),
   fun l => .ok (sampleSpecified.get_observe_wrapper l)⟩

def sampleConfigE : QuantConfigE String := ⟨fun _ => .ok sampleSpecifiedE⟩

def sampleDc : Layer → Except String Layer := fun l => .ok l

/-- A bound configuration whose eligibility query always raises. -/
def failSpecifiedE : SpecifiedConfigE String :=
  ⟨fun _ => .error "boom", [], fun l => .ok l, fun _ => .ok false,
   fun l => .ok l⟩

def failConfigE : QuantConfigE String := ⟨fun _ => .ok failSpecifiedE⟩

theorem quantize_raises_no_error_of_its_own_witness :
    (quantizeE sampleConfigE sampleDc sampleModel false
      = .ok (quantize sampleConfig sampleModel false))
    ∧ collabError failConfigE sampleDc "boom" :=
  ⟨(quantize_raises_no_error_of_its_own sampleConfigE sampleDc sampleConfig
      sampleModel false "boom").1 (fun _ => rfl)
      (fun _ => ⟨sampleSpecifiedE, rfl,
        fun _ => rfl, rfl, fun _ => rfl, fun _ => rfl, fun _ => rfl⟩),
   (quantize_raises_no_error_of_its_own failConfigE sampleDc sampleConfig
      cexModel false "boom").2
      (by simp [quantizeE, sampleDc, failConfigE, cexModel,
        convert_to_quant_layersE, convertLoopE, failSpecifiedE,
        except_pure_eq_ok, except_ok_bind, except_error_bind])⟩

/-! ## Configuration-store view, for the construction-time deep copy

`QAT.__init__` stores `copy.deepcopy(config)`.  To express that mutating
the caller's configuration object afterwards cannot affect the rewriter,
configuration objects live in an addressed store and the constructor copies
the caller's object into a fresh slot owned by the rewriter. -/

def ConfigStore : Type := Nat → QuantConfig

def updateConfig (h : ConfigStore) (a : Nat) (c : QuantConfig) : ConfigStore :=
  fun x => if x = a then c else h x

/-- `copy.deepcopy` on a configuration: an independent, equal-valued copy. -/
def deepcopyConfig (c : QuantConfig) : QuantConfig := c

/-- The rewriter object: it owns the slot holding its configuration copy. -/
structure QAT where
  configAddr : Nat

/-- `QAT.__init__(config)`: `self._config = copy.deepcopy(config)` — the
copy goes into the fresh slot `next`, which becomes the rewriter's own. -/
def QAT.init (h : ConfigStore) (orig : Nat) (next : Nat) :
    QAT × ConfigStore × Nat :=
  (⟨next⟩, updateConfig h next (deepcopyConfig (h orig)), next + 1)

/-- `QAT.quantize`: reads `self._config` from the rewriter's own slot. -/
def QAT.quantizeModel (h : ConfigStore) (q : QAT) (model : Layer)
    (inplace : Bool) : Layer :=
  quantize (h q.configAddr) model inplace

/-- C8: the rewriter deep-copies the configuration at construction into a
slot it owns: overwriting the caller's original configuration object
afterwards does not change the rewriter's behaviour, and every later
`quantize` call on the same rewriter observes the construction-time
configuration value. -/
theorem rewriter_owns_deepcopied_config
    (h : ConfigStore) (orig next : Nat) (c2 : QuantConfig)
    (model : Layer) (inplace : Bool) (hfresh : orig < next) :
    (QAT.quantizeModel
        (updateConfig (QAT.init h orig next).2.1 orig c2)
        (QAT.init h orig next).1 model inplace
      = quantize (h orig) model inplace)
    ∧ (∀ m2 b2,
        QAT.quantizeModel (QAT.init h orig next).2.1 (QAT.init h orig next).1
          m2 b2 = quantize (h orig) m2 b2) := by
  have hne : next ≠ orig := by omega
  constructor
  · simp [QAT.quantizeModel, QAT.init, updateConfig, deepcopyConfig, hne]
  · intro m2 b2
    simp [QAT.quantizeModel, QAT.init, updateConfig, deepcopyConfig]

theorem rewriter_owns_deepcopied_config_witness :
    (QAT.quantizeModel
        (updateConfig (QAT.init (fun _ => sampleConfig) 0 1).2.1 0 quietConfig)
        (QAT.init (fun _ => sampleConfig) 0 1).1 sampleModel false
      = quantize sampleConfig sampleModel false)
    ∧ QAT.quantizeModel (QAT.init (fun _ => sampleConfig) 0 1).2.1
        (QAT.init (fun _ => sampleConfig) 0 1).1 cexModel true
      = quantize sampleConfig cexModel true :=
  ⟨(rewriter_owns_deepcopied_config (fun _ => sampleConfig) 0 1 quietConfig
      sampleModel false (by omega)).1,
   (rewriter_owns_deepcopied_config (fun _ => sampleConfig) 0 1 quietConfig
      sampleModel false (by omega)).2 cexModel true⟩

/-! ## Heap view of the model, for the in-place/mutation contract

`quantize` mutates layer objects (`model._sub_layers[key] = value`), and the
`inplace=False` contract is about object identity: the caller's model must
be untouched because all mutation happens on a deep copy.  Layer objects are
therefore given addresses in a store; `next` is the allocation counter (all
live objects sit below it, fresh objects are allocated at or above it).
The passes are re-run on the store with a fuel bound on recursion depth;
the frame results below hold for every fuel. -/

structure NodeH where
  kind : Nat
  children : List (String × Nat)

def StoreH : Type := Nat → Option NodeH

def writeH (st : StoreH) (a : Nat) (n : NodeH) : StoreH :=
  fun x => if x = a then some n else st x

/-- `type(child)` read off the store. -/
def kindOfH (st : StoreH) (a : Nat) : Nat :=
  match st a with
  | some n => n.kind
  | none => 0

/-- The configuration collaborator on the store view.  The replacement
constructors (`get_qat_layer`, `get_observe_wrapper`) take the store and the
allocation counter and return the address of the object they built together
with the updated store and counter; `specify` may mutate the working model
it is handed. -/
structure ConfigH where
  specify : StoreH → Nat → Nat → StoreH × Nat
  is_quantifiable : StoreH → Nat → Bool
  qat_layer_mappings : List Nat
  get_qat_layer : StoreH → Nat → Nat → Nat × StoreH × Nat
  need_observe : StoreH → Nat → Bool
  get_observe_wrapper : StoreH → Nat → Nat → Nat × StoreH × Nat

/-- The install step on the store:
`for key, value in replaced.items(): model._sub_layers[key] = value`. -/
def installNodeH (st : StoreH) (a : Nat) (repl : List (String × Nat)) :
    StoreH :=
  match st a with
  | none => st
  | some node =>
    writeH st a ⟨node.kind,
      repl.foldl (fun cs kv => setKey cs kv.1 kv.2) node.children⟩

mutual
/-- `_convert_to_quant_layers` on the store. -/
def convertH (cfg : ConfigH) (fuel : Nat) (st : StoreH) (a : Nat)
    (next : Nat) : StoreH × Nat :=
  match fuel with
  | 0 => (st, next)
  | fuel2 + 1 =>
    match st a with
    | none => (st, next)
    | some node =>
      let r := convertLoopH cfg fuel2 node.children st next
      (installNodeH r.1 a r.2.2, r.2.1)
termination_by (fuel, 0)

/-- The loop of `_convert_to_quant_layers` on the store: visits the node's
children left to right, recursing in place into eligible unmapped children
and collecting staged replacements for eligible mapped ones. -/
def convertLoopH (cfg : ConfigH) (fuel : Nat) (cs : List (String × Nat))
    (st : StoreH) (next : Nat) : StoreH × Nat × List (String × Nat) :=
  match cs with
  | [] => (st, next, [])
  | (name, c) :: rest =>
    if cfg.is_quantifiable st c then
      if (cfg.qat_layer_mappings.contains (kindOfH st c)) = false then
        let p := convertH cfg fuel st c next
        convertLoopH cfg fuel rest p.1 p.2
      else
        let q := cfg.get_qat_layer st c next
        let r := convertLoopH cfg fuel rest q.2.1 q.2.2
        (r.1, r.2.1, (name, q.1) :: r.2.2)
    else
      convertLoopH cfg fuel rest st next
termination_by (fuel, cs.length + 1)
end

mutual
/-- `_insert_activation_observers` on the store. -/
def observersH (cfg : ConfigH) (fuel : Nat) (st : StoreH) (a : Nat)
    (next : Nat) : StoreH × Nat :=
  match fuel with
  | 0 => (st, next)
  | fuel2 + 1 =>
    match st a with
    | none => (st, next)
    | some node =>
      let r := observeLoopH cfg fuel2 node.children st next
      (installNodeH r.1 a r.2.2, r.2.1)
termination_by (fuel, 0)

/-- The loop of `_insert_activation_observers` on the store. -/
def observeLoopH (cfg : ConfigH) (fuel : Nat) (cs : List (String × Nat))
    (st : StoreH) (next : Nat) : StoreH × Nat × List (String × Nat) :=
  match cs with
  | [] => (st, next, [])
  | (name, c) :: rest =>
    if cfg.need_observe st c then
      let q := cfg.get_observe_wrapper st c next
      let r := observeLoopH cfg fuel rest q.2.1 q.2.2
      (r.1, r.2.1, (name, q.1) :: r.2.2)
    else
      let p := observersH cfg fuel st c next
      observeLoopH cfg fuel rest p.1 p.2
termination_by (fuel, cs.length + 1)
end

mutual
/-- `copy.deepcopy(model)` on the store: rebuilds the tree at fresh
addresses, never touching existing ones.  The fuel-exhausted case allocates
an empty placeholder so that the copy is fresh for every fuel; fuel at
least the tree height never reaches it. -/
def deepcopyH (fuel : Nat) (st : StoreH) (a : Nat) (next : Nat) :
    Nat × StoreH × Nat :=
  match fuel with
  | 0 => (next, writeH st next ⟨0, []⟩, next + 1)
  | fuel2 + 1 =>
    match st a with
    | none => (next, writeH st next ⟨0, []⟩, next + 1)
    | some node =>
      let r := deepcopyChildrenH fuel2 node.children st next
      (r.2.2, writeH r.2.1 r.2.2 ⟨node.kind, r.1⟩, r.2.2 + 1)
termination_by (fuel, 0)

def deepcopyChildrenH (fuel : Nat) (cs : List (String × Nat)) (st : StoreH)
    (next : Nat) : List (String × Nat) × StoreH × Nat :=
  match cs with
  | [] => ([], st, next)
  | (name, c) :: rest =>
    let q := deepcopyH fuel st c next
    let r := deepcopyChildrenH fuel rest q.2.1 q.2.2
    ((name, q.1) :: r.1, r.2.1, r.2.2)
termination_by (fuel, cs.length + 1)
end

/-- `QAT.quantize` on the store: deep-copy unless `inplace`, bind the
configuration to the working model, run both passes on the working root,
return its address with the final store and counter. -/
def quantizeH (cfg : ConfigH) (fuel : Nat) (st : StoreH) (model : Nat)
    (next : Nat) (inplace : Bool) : Nat × StoreH × Nat :=
  let w := if inplace then (model, st, next) else deepcopyH fuel st model next
  let s := cfg.specify w.2.1 w.1 w.2.2
  let p1 := convertH cfg fuel s.1 w.1 s.2
  let p2 := observersH cfg fuel p1.1 w.1 p1.2
  (w.1, p2.1, p2.2)

/-- Every node stored at an address ≥ `lo` has all its child references
≥ `lo`: the region at or above `lo` is closed (it never points back into
the pre-existing region below `lo`). -/
def GlobalHi (lo : Nat) (st : StoreH) : Prop :=
  ∀ a, lo ≤ a → ∀ n, st a = some n → ∀ p ∈ n.children, lo ≤ p.2

/-- Contract of a replacement-producing collaborator
(`get_qat_layer` / `get_observe_wrapper`): handed an object ≥ `lo` and the
allocation counter, it only allocates — it never mutates a pre-existing
address, its result lives at or above `lo`, and it keeps the ≥ `lo` region
closed. -/
def FrameOK (lo : Nat) (f : StoreH → Nat → Nat → Nat × StoreH × Nat) : Prop :=
  ∀ st c next, lo ≤ next → lo ≤ c → GlobalHi lo st →
    lo ≤ (f st c next).1
    ∧ next ≤ (f st c next).2.2
    ∧ (∀ x, x < next → (f st c next).2.1 x = st x)
    ∧ GlobalHi lo (f st c next).2.1

/-- Contract of `_specify`: handed the working model (≥ `lo`), it may
mutate the working tree and allocate, but never touches an address below
`lo`. -/
def SpecifyOK (lo : Nat) (f : StoreH → Nat → Nat → StoreH × Nat) : Prop :=
  ∀ st a next, lo ≤ next → lo ≤ a → GlobalHi lo st →
    next ≤ (f st a next).2
    ∧ (∀ x, x < lo → (f st a next).1 x = st x)
    ∧ GlobalHi lo (f st a next).1

theorem globalHi_write {lo : Nat} {st : StoreH} {a : Nat} {n : NodeH}
    (hst : GlobalHi lo st) (hch : ∀ p ∈ n.children, lo ≤ p.2) :
    GlobalHi lo (writeH st a n) := by
  intro b hb m hm p hp
  by_cases hba : b = a
  · subst hba
    simp only [writeH, if_pos rfl] at hm
    cases hm
    exact hch p hp
  · simp only [writeH, if_neg hba] at hm
    exact hst b hb m hm p hp

theorem setKey_values_ge {lo : Nat} :
    ∀ (cs : List (String × Nat)) (key : String) (v : Nat),
      (∀ p ∈ cs, lo ≤ p.2) → lo ≤ v → ∀ p ∈ setKey cs key v, lo ≤ p.2 := by
  intro cs
  induction cs with
  | nil =>
    intro key v _ hv p hp
    rw [setKey] at hp
    rcases List.mem_singleton.mp hp with h
    rw [h]
    exact hv
  | cons hd tl ih =>
    intro key v hcs hv p hp
    obtain ⟨n, c⟩ := hd
    rw [setKey] at hp
    by_cases hn : n = key
    · rw [if_pos hn] at hp
      rcases List.mem_cons.mp hp with h | h
      · rw [h]; exact hv
      · exact hcs p (List.mem_cons_of_mem _ h)
    · rw [if_neg hn] at hp
      rcases List.mem_cons.mp hp with h | h
      · rw [h]; exact hcs (n, c) (List.mem_cons_self _ _)
      · exact ih key v (fun p2 hp2 => hcs p2 (List.mem_cons_of_mem _ hp2))
          hv p h

theorem install_values_ge {lo : Nat} :
    ∀ (repl cs : List (String × Nat)),
      (∀ p ∈ cs, lo ≤ p.2) → (∀ q ∈ repl, lo ≤ q.2) →
      ∀ p ∈ repl.foldl (fun acc kv => setKey acc kv.1 kv.2) cs, lo ≤ p.2 := by
  intro repl
  induction repl with
  | nil => intro cs hcs _ p hp; exact hcs p hp
  | cons hd tl ih =>
    intro cs hcs hrepl p hp
    simp only [List.foldl_cons] at hp
    exact ih (setKey cs hd.1 hd.2)
      (setKey_values_ge cs hd.1 hd.2 hcs (hrepl hd (List.mem_cons_self _ _)))
      (fun q hq => hrepl q (List.mem_cons_of_mem _ hq)) p hp

theorem installNodeH_frame {lo : Nat} {st : StoreH} {a : Nat}
    {repl : List (String × Nat)} (hg : GlobalHi lo st) (ha : lo ≤ a)
    (hrepl : ∀ q ∈ repl, lo ≤ q.2) :
    (∀ x, x < lo → installNodeH st a repl x = st x)
    ∧ GlobalHi lo (installNodeH st a repl) := by
  rw [installNodeH]
  cases hsta : st a with
  | none => exact ⟨fun _ _ => rfl, hg⟩
  | some node =>
    have hch : ∀ p ∈ node.children, lo ≤ p.2 := hg a ha node hsta
    constructor
    · intro x hx
      have hxa : x ≠ a := by omega
      simp only [writeH, if_neg hxa]
    · exact globalHi_write hg (install_values_ge _ _ hch hrepl)

theorem convertLoopH_frame (cfg : ConfigH) (lo : Nat)
    (hq : FrameOK lo cfg.get_qat_layer) (fuel : Nat)
    (hP : ∀ st a next, GlobalHi lo st → lo ≤ a → lo ≤ next →
      (∀ x, x < lo → (convertH cfg fuel st a next).1 x = st x)
      ∧ next ≤ (convertH cfg fuel st a next).2
      ∧ GlobalHi lo (convertH cfg fuel st a next).1) :
    ∀ cs st next, GlobalHi lo st → (∀ p ∈ cs, lo ≤ p.2) → lo ≤ next →
      (∀ x, x < lo → (convertLoopH cfg fuel cs st next).1 x = st x)
      ∧ next ≤ (convertLoopH cfg fuel cs st next).2.1
      ∧ GlobalHi lo (convertLoopH cfg fuel cs st next).1
      ∧ (∀ q ∈ (convertLoopH cfg fuel cs st next).2.2, lo ≤ q.2) := by
  intro cs
  induction cs with
  | nil =>
    intro st next hg _ _
    rw [convertLoopH]
    exact ⟨fun _ _ => rfl, Nat.le_refl _, hg, by intro q hq2; cases hq2⟩
  | cons hd tl ih =>
    intro st next hg hcs hn
    obtain ⟨name, c⟩ := hd
    have hc : lo ≤ c := hcs (name, c) (List.mem_cons_self _ _)
    have htl : ∀ p ∈ tl, lo ≤ p.2 :=
      fun p hp => hcs p (List.mem_cons_of_mem _ hp)
    rw [convertLoopH]
    by_cases hqb : cfg.is_quantifiable st c
    · by_cases hmap : (cfg.qat_layer_mappings.contains (kindOfH st c)) = false
      · simp only [hqb, hmap, if_true]
        obtain ⟨f1, n1, g1⟩ := hP st c next hg hc hn
        obtain ⟨f2, n2, g2, s2⟩ := ih (convertH cfg fuel st c next).1
          (convertH cfg fuel st c next).2 g1 htl (Nat.le_trans hn n1)
        exact ⟨fun x hx => (f2 x hx).trans (f1 x hx), Nat.le_trans n1 n2,
          g2, s2⟩
      · simp only [hqb, hmap, if_true, if_false, Bool.false_eq_true]
        obtain ⟨r1, n1, f1, g1⟩ := hq st c next hn hc hg
        obtain ⟨f2, n2, g2, s2⟩ := ih (cfg.get_qat_layer st c next).2.1
          (cfg.get_qat_layer st c next).2.2 g1 htl (Nat.le_trans hn n1)
        refine ⟨fun x hx => (f2 x hx).trans (f1 x (Nat.lt_of_lt_of_le hx hn)),
          Nat.le_trans n1 n2, g2, ?_⟩
        intro q hq2
        rcases List.mem_cons.mp hq2 with h | h
        · rw [h]; exact r1
        · exact s2 q h
    · simp only [hqb, if_false, Bool.false_eq_true]
      exact ih st next hg htl hn

theorem convertH_frame (cfg : ConfigH) (lo : Nat)
    (hq : FrameOK lo cfg.get_qat_layer) :
    ∀ fuel st a next, GlobalHi lo st → lo ≤ a → lo ≤ next →
      (∀ x, x < lo → (convertH cfg fuel st a next).1 x = st x)
      ∧ next ≤ (convertH cfg fuel st a next).2
      ∧ GlobalHi lo (convertH cfg fuel st a next).1 := by
  intro fuel
  induction fuel with
  | zero =>
    intro st a next hg _ _
    rw [convertH]
    exact ⟨fun _ _ => rfl, Nat.le_refl _, hg⟩
  | succ fuel ih =>
    intro st a next hg ha hn
    rw [convertH]
    cases hsta : st a with
    | none =>
      exact ⟨fun _ _ => rfl, Nat.le_refl _, hg⟩
    | some node =>
      have hch : ∀ p ∈ node.children, lo ≤ p.2 := hg a ha node hsta
      obtain ⟨f1, n1, g1, s1⟩ := convertLoopH_frame cfg lo hq fuel ih
        node.children st next hg hch hn
      obtain ⟨fi, gi⟩ := installNodeH_frame g1 ha s1
      exact ⟨fun x hx => (fi x hx).trans (f1 x hx), n1, gi⟩

theorem observeLoopH_frame (cfg : ConfigH) (lo : Nat)
    (hw : FrameOK lo cfg.get_observe_wrapper) (fuel : Nat)
    (hP : ∀ st a next, GlobalHi lo st → lo ≤ a → lo ≤ next →
      (∀ x, x < lo → (observersH cfg fuel st a next).1 x = st x)
      ∧ next ≤ (observersH cfg fuel st a next).2
      ∧ GlobalHi lo (observersH cfg fuel st a next).1) :
    ∀ cs st next, GlobalHi lo st → (∀ p ∈ cs, lo ≤ p.2) → lo ≤ next →
      (∀ x, x < lo → (observeLoopH cfg fuel cs st next).1 x = st x)
      ∧ next ≤ (observeLoopH cfg fuel cs st next).2.1
      ∧ GlobalHi lo (observeLoopH cfg fuel cs st next).1
      ∧ (∀ q ∈ (observeLoopH cfg fuel cs st next).2.2, lo ≤ q.2) := by
  intro cs
  induction cs with
  | nil =>
    intro st next hg _ _
    rw [observeLoopH]
    exact ⟨fun _ _ => rfl, Nat.le_refl _, hg, by intro q hq2; cases hq2⟩
  | cons hd tl ih =>
    intro st next hg hcs hn
    obtain ⟨name, c⟩ := hd
    have hc : lo ≤ c := hcs (name, c) (List.mem_cons_self _ _)
    have htl : ∀ p ∈ tl, lo ≤ p.2 :=
      fun p hp => hcs p (List.mem_cons_of_mem _ hp)
    rw [observeLoopH]
    by_cases hob : cfg.need_observe st c
    · simp only [hob, if_true]
      obtain ⟨r1, n1, f1, g1⟩ := hw st c next hn hc hg
      obtain ⟨f2, n2, g2, s2⟩ := ih (cfg.get_observe_wrapper st c next).2.1
        (cfg.get_observe_wrapper st c next).2.2 g1 htl (Nat.le_trans hn n1)
      refine ⟨fun x hx => (f2 x hx).trans (f1 x (Nat.lt_of_lt_of_le hx hn)),
        Nat.le_trans n1 n2, g2, ?_⟩
      intro q hq2
      rcases List.mem_cons.mp hq2 with h | h
      · rw [h]; exact r1
      · exact s2 q h
    · simp only [hob, if_false, Bool.false_eq_true]
      obtain ⟨f1, n1, g1⟩ := hP st c next hg hc hn
      obtain ⟨f2, n2, g2, s2⟩ := ih (observersH cfg fuel st c next).1
        (observersH cfg fuel st c next).2 g1 htl (Nat.le_trans hn n1)
      exact ⟨fun x hx => (f2 x hx).trans (f1 x hx), Nat.le_trans n1 n2,
        g2, s2⟩

theorem observersH_frame (cfg : ConfigH) (lo : Nat)
    (hw : FrameOK lo cfg.get_observe_wrapper) :
    ∀ fuel st a next, GlobalHi lo st → lo ≤ a → lo ≤ next →
      (∀ x, x < lo → (observersH cfg fuel st a next).1 x = st x)
      ∧ next ≤ (observersH cfg fuel st a next).2
      ∧ GlobalHi lo (observersH cfg fuel st a next).1 := by
  intro fuel
  induction fuel with
  | zero =>
    intro st a next hg _ _
    rw [observersH]
    exact ⟨fun _ _ => rfl, Nat.le_refl _, hg⟩
  | succ fuel ih =>
    intro st a next hg ha hn
    rw [observersH]
    cases hsta : st a with
    | none =>
      exact ⟨fun _ _ => rfl, Nat.le_refl _, hg⟩
    | some node =>
      have hch : ∀ p ∈ node.children, lo ≤ p.2 := hg a ha node hsta
      obtain ⟨f1, n1, g1, s1⟩ := observeLoopH_frame cfg lo hw fuel ih
        node.children st next hg hch hn
      obtain ⟨fi, gi⟩ := installNodeH_frame g1 ha s1
      exact ⟨fun x hx => (fi x hx).trans (f1 x hx), n1, gi⟩

theorem deepcopyChildrenH_frame (lo : Nat) (fuel : Nat)
    (hP : ∀ st a next, lo ≤ next → GlobalHi lo st →
      (∀ x, x < next → (deepcopyH fuel st a next).2.1 x = st x)
      ∧ next ≤ (deepcopyH fuel st a next).2.2
      ∧ lo ≤ (deepcopyH fuel st a next).1
      ∧ GlobalHi lo (deepcopyH fuel st a next).2.1) :
    ∀ cs st next, lo ≤ next → GlobalHi lo st →
      (∀ x, x < next → (deepcopyChildrenH fuel cs st next).2.1 x = st x)
      ∧ next ≤ (deepcopyChildrenH fuel cs st next).2.2
      ∧ (∀ p ∈ (deepcopyChildrenH fuel cs st next).1, lo ≤ p.2)
      ∧ GlobalHi lo (deepcopyChildrenH fuel cs st next).2.1 := by
  intro cs
  induction cs with
  | nil =>
    intro st next _ hg
    rw [deepcopyChildrenH]
    refine ⟨fun _ _ => rfl, Nat.le_refl _, ?_, hg⟩
    intro p hp
    cases hp
  | cons hd tl ih =>
    intro st next hn hg
    obtain ⟨name, c⟩ := hd
    rw [deepcopyChildrenH]
    obtain ⟨f1, n1, r1, g1⟩ := hP st c next hn hg
    obtain ⟨f2, n2, s2, g2⟩ := ih (deepcopyH fuel st c next).2.1
      (deepcopyH fuel st c next).2.2 (Nat.le_trans hn n1) g1
    refine ⟨?_, Nat.le_trans n1 n2, ?_, g2⟩
    · intro x hx
      exact ((f2 x (Nat.lt_of_lt_of_le hx n1)).trans (f1 x hx))
    · intro p hp
      rcases List.mem_cons.mp hp with h | h
      · rw [h]; exact r1
      · exact s2 p h

theorem deepcopyH_frame (lo : Nat) :
    ∀ fuel st a next, lo ≤ next → GlobalHi lo st →
      (∀ x, x < next → (deepcopyH fuel st a next).2.1 x = st x)
      ∧ next ≤ (deepcopyH fuel st a next).2.2
      ∧ lo ≤ (deepcopyH fuel st a next).1
      ∧ GlobalHi lo (deepcopyH fuel st a next).2.1 := by
  intro fuel
  induction fuel with
  | zero =>
    intro st a next hn hg
    rw [deepcopyH]
    refine ⟨?_, Nat.le_succ _, hn, ?_⟩
    · intro x hx
      have hxn : x ≠ next := by omega
      simp only [writeH, if_neg hxn]
    · refine globalHi_write hg ?_
      intro p hp
      cases hp
  | succ fuel ih =>
    intro st a next hn hg
    rw [deepcopyH]
    cases hsta : st a with
    | none =>
      refine ⟨?_, Nat.le_succ _, hn, ?_⟩
      · intro x hx
        have hxn : x ≠ next := by omega
        simp only [writeH, if_neg hxn]
      · refine globalHi_write hg ?_
        intro p hp
        cases hp
    | some node =>
      obtain ⟨f1, n1, s1, g1⟩ := deepcopyChildrenH_frame lo fuel ih
        node.children st next hn hg
      refine ⟨?_, Nat.le_succ_of_le n1, Nat.le_trans hn n1, ?_⟩
      · intro x hx
        have hxn : x ≠ (deepcopyChildrenH fuel node.children st next).2.2 := by
          omega
        show writeH (deepcopyChildrenH fuel node.children st next).2.1
          (deepcopyChildrenH fuel node.children st next).2.2
          ⟨node.kind, (deepcopyChildrenH fuel node.children st next).1⟩ x
            = st x
        simp only [writeH, if_neg hxn]
        exact f1 x hx
      · exact globalHi_write g1 s1

/-- C7: with `inplace=false`, `quantize` never touches the caller's model:
every pre-existing address — in particular the original root node and all
its child references — holds exactly the same object after the call,
provided the collaborators respect their allocate-fresh/working-tree
contracts.  All mutation happens on the deep copy, which lives entirely at
fresh addresses.  The result holds for every recursion-fuel bound. -/
theorem quantize_not_inplace_preserves_original
    (cfg : ConfigH) (fuel : Nat) (st : StoreH) (model next0 x : Nat)
    (hspec : SpecifyOK next0 cfg.specify)
    (hqat : FrameOK next0 cfg.get_qat_layer)
    (hobs : FrameOK next0 cfg.get_observe_wrapper)
    (hfresh : ∀ y, next0 ≤ y → st y = none)
    (hx : x < next0) :
    (quantizeH cfg fuel st model next0 false).2.1 x = st x := by
  have hg0 : GlobalHi next0 st := by
    intro a ha n hnn p hp
    rw [hfresh a ha] at hnn
    cases hnn
  obtain ⟨fw, nw, rw2, gw⟩ :=
    deepcopyH_frame next0 fuel st model next0 (Nat.le_refl _) hg0
  obtain ⟨ns, fs, gs⟩ := hspec (deepcopyH fuel st model next0).2.1
    (deepcopyH fuel st model next0).1 (deepcopyH fuel st model next0).2.2
    nw rw2 gw
  obtain ⟨f1, n1, g1⟩ := convertH_frame cfg next0 hqat fuel
    (cfg.specify (deepcopyH fuel st model next0).2.1
      (deepcopyH fuel st model next0).1
      (deepcopyH fuel st model next0).2.2).1
    (deepcopyH fuel st model next0).1
    (cfg.specify (deepcopyH fuel st model next0).2.1
      (deepcopyH fuel st model next0).1
      (deepcopyH fuel st model next0).2.2).2
    gs rw2 (Nat.le_trans nw ns)
  obtain ⟨f2, n2, g2⟩ := observersH_frame cfg next0 hobs fuel
    (convertH cfg fuel
      (cfg.specify (deepcopyH fuel st model next0).2.1
        (deepcopyH fuel st model next0).1
        (deepcopyH fuel st model next0).2.2).1
      (deepcopyH fuel st model next0).1
      (cfg.specify (deepcopyH fuel st model next0).2.1
        (deepcopyH fuel st model next0).1
        (deepcopyH fuel st model next0).2.2).2).1
    (deepcopyH fuel st model next0).1
    (convertH cfg fuel
      (cfg.specify (deepcopyH fuel st model next0).2.1
        (deepcopyH fuel st model next0).1
        (deepcopyH fuel st model next0).2.2).1
      (deepcopyH fuel st model next0).1
      (cfg.specify (deepcopyH fuel st model next0).2.1
        (deepcopyH fuel st model next0).1
        (deepcopyH fuel st model next0).2.2).2).2
    g1 rw2 (Nat.le_trans (Nat.le_trans nw ns) n1)
  exact (f2 x hx).trans ((f1 x hx).trans ((fs x hx).trans (fw x hx)))

/-- A concrete allocate-fresh replacement constructor: builds a node of
kind `k` wrapping the layer it was handed, at a fresh address. -/
def allocWrapH (k : Nat) : StoreH → Nat → Nat → Nat × StoreH × Nat :=
  fun st c next => (next, writeH st next ⟨k, [("inner", c)]⟩, next + 1)

theorem allocWrapH_frameOK (lo k : Nat) : FrameOK lo (allocWrapH k) := by
  intro st c next hn hc hg
  refine ⟨hn, Nat.le_succ _, ?_, ?_⟩
  · intro x hx
    have hxn : x ≠ next := by omega
    simp [allocWrapH, writeH, hxn]
  · refine globalHi_write hg ?_
    intro p hp
    rw [List.mem_singleton.mp hp]
    exact hc

/-- A configuration binding with no effect on the layer store. -/
def noSpecifyH : StoreH → Nat → Nat → StoreH × Nat :=
  fun st _ next => (st, next)

theorem noSpecifyH_ok (lo : Nat) : SpecifyOK lo noSpecifyH :=
  fun _ _ _ _ _ hg => ⟨Nat.le_refl _, fun _ _ => rfl, hg⟩

def wCfgH : ConfigH :=
  ⟨noSpecifyH, fun st a => decide (kindOfH st a ≠ 5), [3], allocWrapH 100,
   fun st a => decide (kindOfH st a = 100), allocWrapH 200⟩

/-- A two-object store: a kind-3 leaf at address 0 and the model root at
address 1 pointing at it; addresses from 2 on are free. -/
def wStH : StoreH :=
  fun x => if x = 0 then some ⟨3, []⟩
    else if x = 1 then some ⟨0, [("conv", 0)]⟩ else none

theorem quantize_not_inplace_preserves_original_witness :
    (quantizeH wCfgH 3 wStH 1 2 false).2.1 0 = wStH 0
    ∧ (quantizeH wCfgH 3 wStH 1 2 false).2.1 1 = wStH 1 :=
  ⟨quantize_not_inplace_preserves_original wCfgH 3 wStH 1 2 0
     (noSpecifyH_ok 2) (allocWrapH_frameOK 2 100) (allocWrapH_frameOK 2 200)
     (by
       intro y hy
       have h0 : y ≠ 0 := by omega
       have h1 : y ≠ 1 := by omega
       simp [wStH, h0, h1])
     (by omega),
   quantize_not_inplace_preserves_original wCfgH 3 wStH 1 2 1
     (noSpecifyH_ok 2) (allocWrapH_frameOK 2 100) (allocWrapH_frameOK 2 200)
     (by
       intro y hy
       have h0 : y ≠ 0 := by omega
       have h1 : y ≠ 1 := by omega
       simp [wStH, h0, h1])
     (by omega)⟩
